import Mathlib

/-!
Shallow embedding of `src/ui/mitre_tags/mitreScraperMBC.py`.

Strings are modelled as `List Char`; the Python string primitives used by the
script (`find`, slicing, `in`, `split` on a one-character separator, `strip`,
`replace`, f-string concatenation) are modelled below with Python's exact
semantics (including `find` returning -1 and negative slice indices).
Fallible code (Python statements that can raise) returns `Except PyError`.
-/

namespace MitreScraperMBC

/-- Strings are lists of characters. -/
abbrev Str := List Char

/-- The kinds of exception the script can actually raise at runtime
(there are no named domain errors anywhere in the source). -/
inductive PyError where
  | indexError
  | keyError
  | attributeError
deriving DecidableEq, Repr

/-- `startsWith p s` is true when `p` is a prefix of `s` (used to model
substring search). -/
def startsWith : Str → Str → Bool
  | [], _ => true
  | _ :: _, [] => false
  | p :: ps, c :: cs => if p = c then startsWith ps cs else false

/-- Index of the first occurrence of `p` in `s`, if any
(Python `s.find(p)` when it succeeds; also backs `p in s`). -/
def subFind (p : Str) : Str → Option Nat
  | [] => if startsWith p [] then some 0 else none
  | c :: t => if startsWith p (c :: t) then some 0 else (subFind p t).map (fun n => n + 1)

/-- Python `sub in s` (substring containment). -/
def pyContains (s sub : Str) : Bool := (subFind sub s).isSome

/-- Python `s.find(p)`: first index of `p` in `s`, `-1` when absent. -/
def pyFind (s p : Str) : Int :=
  match subFind p s with
  | some n => (n : Int)
  | none => -1

/-- Normalize one slice endpoint the way Python does for a string of length
`n`: negative indices count from the end, then the result is clamped to
`[0, n]`. -/
def pyIdx (n : Nat) (i : Int) : Nat :=
  let j := if i < 0 then i + n else i
  if j < 0 then 0 else min j.toNat n

/-- Python `s[a:b]` (step 1), with full negative-index and clamping
semantics. -/
def pySlice (s : Str) (a b : Int) : Str :=
  (s.take (pyIdx s.length b)).drop (pyIdx s.length a)

/-- Python `str.isspace` characters (the set `strip` removes). -/
def pyIsSpace (c : Char) : Bool :=
  c = ' ' || c = '\t' || c = '\n' || c = '\r' || c = '\x0b' || c = '\x0c'

/-- Python `s.strip()`: drop leading and trailing whitespace. -/
def pyStrip (s : Str) : Str :=
  ((s.dropWhile pyIsSpace).reverse.dropWhile pyIsSpace).reverse

/-- Python `s.split(sep)` for a one-character separator `sep`
(every call site of `.split` in the script uses a single-character
separator: `"\n"`, `":"`, `"."`). -/
def pySplit (sep : Char) : Str → List Str
  | [] => [[]]
  | c :: t =>
    if c = sep then [] :: pySplit sep t
    else
      match pySplit sep t with
      | [] => [[c]]
      | h :: r => (c :: h) :: r

/-- Fuelled worker for Python `s.replace(old, new)`: replace every
non-overlapping occurrence of `old`, scanning left to right.  One unit of
fuel is spent per character consumed, so fuel `s.length + 1` always
suffices. -/
def pyReplaceAux (old new : Str) : Nat → Str → Str
  | 0, s => s
  | _ + 1, [] => if old = [] then new else []
  | fuel + 1, c :: t =>
    if old = [] then new ++ c :: pyReplaceAux old new fuel t
    else if startsWith old (c :: t) then new ++ pyReplaceAux old new fuel (t.drop (old.length - 1))
    else c :: pyReplaceAux old new fuel t

/-- Python `s.replace(old, new)`. -/
def pyReplace (old new s : Str) : Str := pyReplaceAux old new (s.length + 1) s

/-- Source `cutByPhrases`, fuelled worker: while both phrases occur, cut the
text strictly between the first occurrence of `phrase1` and the first
occurrence of `phrase2`, then continue after that occurrence of `phrase2`.
`text[index1 + len(phrase1):index2]` is `(text.take index2).drop (index1 + phrase1.length)`
since both indices are non-negative here. -/
def cutByPhrasesAux (phrase1 phrase2 : Str) : Nat → Str → List Str
  | 0, _ => []
  | fuel + 1, text =>
    match subFind phrase1 text, subFind phrase2 text with
    | some index1, some index2 =>
      ((text.take index2).drop (index1 + phrase1.length)) ::
        cutByPhrasesAux phrase1 phrase2 fuel (text.drop (index2 + phrase2.length))
    | _, _ => []

/-- Source `cutByPhrases(text, phrase1, phrase2)`: the while loop terminates
within `text.length` iterations whenever `phrase2` is non-empty (each
iteration drops at least `phrase2.length ≥ 1` characters), so fuel
`text.length + 1` computes the loop's result. -/
def cutByPhrases (text phrase1 phrase2 : Str) : List Str :=
  cutByPhrasesAux phrase1 phrase2 (text.length + 1) text

/-- Source `extractPattern(s, phrase1, phrase2)`:
`s[s.find(phrase1) + len(phrase1):s.find(phrase2)]`. -/
def extractPattern (s phrase1 phrase2 : Str) : Str :=
  pySlice s (pyFind s phrase1 + phrase1.length) (pyFind s phrase2)

/-- Source `extractByKeyword(inputList, keyword)`: keep the lines containing
`keyword`. -/
def extractByKeyword (inputList : List Str) (keyword : Str) : List Str :=
  inputList.filter (fun line => pyContains line keyword)

/-- The cleaned data lines of a technique chunk: split the chunk on newlines,
keep the lines containing `"<tspan"`, and map each through
`extractPattern(line, ">", "</tspan")`.  (This is the first half of the
source's `extractTechnique`.) -/
def techniqueFragments (chunk : Str) : List Str :=
  (extractByKeyword (pySplit '\n' chunk) "<tspan".data).map
    (fun line => extractPattern line ">".data "</tspan".data)

/-- Source `extractTechnique(chunk)`.  `dataLines[0]` on an empty list and
`techniqueSplit[1]` on a one-element list raise `IndexError` in Python. -/
def extractTechnique (chunk : Str) : Except PyError (Str × Str) :=
  match techniqueFragments chunk with
  | [] => .error .indexError
  | first :: rest =>
    let result := rest.foldl (fun acc line => acc ++ ' ' :: line) first
    match pySplit ':' result with
    | x0 :: x1 :: _ => .ok (pyStrip x0, pyStrip x1)
    | _ => .error .indexError

/-- Source `extractTactic(chunk)`: the first line containing `"tspan"`,
passed through `extractPattern(s, ">", "</tspan")`; `None` when no line
matches (the function falls off its end). -/
def extractTactic (chunk : Str) : Option Str :=
  ((pySplit '\n' chunk).find? (fun s => pyContains s "tspan".data)).map
    (fun s => extractPattern s ">".data "</tspan".data)

/-- A tactic group: Python dict from technique id to technique name,
modelled as an insertion-ordered association list with unique keys. -/
abbrev Group := List (Str × Str)

/-- The taxonomy tree: Python dict from tactic name to its group. -/
abbrev Tree := List (Str × Group)

/-- Python `d[k]` lookup (as an `Option`; `none` is Python's `KeyError`). -/
def dictGet {α : Type} : List (Str × α) → Str → Option α
  | [], _ => none
  | p :: rest, k => if p.1 = k then some p.2 else dictGet rest k

/-- Python `d[k] = v`: update in place when `k` is present (keeping its
position), append otherwise. -/
def dictSet {α : Type} (d : List (Str × α)) (k : Str) (v : α) : List (Str × α) :=
  if k ∈ d.map Prod.fst then d.map (fun p => if p.1 = k then (k, v) else p)
  else d ++ [(k, v)]

/-- One iteration of the module-level traversal loop, on state
`(allResults, tacticGroup)`.  A chunk containing `"technique"` inserts the
extracted entry into the current group; otherwise a chunk containing
`"tactic-label"` commits the current group under the (suffix-stripped)
extracted tactic name and resets the group (calling `.replace` on a `None`
tactic name raises `AttributeError` in Python); any other chunk is skipped. -/
def processChunk (st : Tree × Group) (chunk : Str) : Except PyError (Tree × Group) :=
  if pyContains chunk "technique".data then
    match extractTechnique chunk with
    | .error e => .error e
    | .ok (idTag, name) => .ok (st.1, dictSet st.2 idTag name)
  else if pyContains chunk "tactic-label".data then
    match extractTactic chunk with
    | none => .error .attributeError
    | some tacticName =>
      .ok (dictSet st.1 (pyReplace " Micro-objective".data [] tacticName) st.2, [])
  else .ok st

/-- The module-level traversal loop over the chunk list. -/
def processChunks : Tree × Group → List Str → Except PyError (Tree × Group)
  | st, [] => .ok st
  | st, chunk :: rest =>
    match processChunk st chunk with
    | .error e => .error e
    | .ok st2 => processChunks st2 rest

/-- The whole traversal from the initial empty state
(`allResults = {}`, `tacticGroup = {}`). -/
def buildTree (chunks : List Str) : Except PyError (Tree × Group) :=
  processChunks ([], []) chunks

/-- The inner loop of `postProcessing` over one tactic's group, iterating
over the group's key list: a key containing `"."` is rewritten to
`"{parentValue}::{oldValue}"` where `parentValue = group[key.split(".")[0]]`
is looked up in the current group (`KeyError` when the parent id is absent). -/
def processGroupKeys : Group → List Str → Except PyError Group
  | g, [] => .ok g
  | g, key :: rest =>
    if pyContains key ".".data then
      match pySplit '.' key with
      | [] => .error .indexError
      | parentKey :: _ =>
        match dictGet g parentKey with
        | none => .error .keyError
        | some parentValue =>
          match dictGet g key with
          | none => .error .keyError
          | some oldValue =>
            processGroupKeys (dictSet g key (parentValue ++ "::".data ++ oldValue)) rest
    else processGroupKeys g rest

/-- `postProcessing`'s work on one group (the inner `for key in group` loop). -/
def processGroup (group : Group) : Except PyError Group :=
  processGroupKeys group (group.map Prod.fst)

/-- The outer loop of `postProcessing` over the tree's tactic keys, replacing
each tactic's group by its processed version. -/
def postProcessingTactics : Tree → List Str → Except PyError Tree
  | t, [] => .ok t
  | t, tactic :: rest =>
    match dictGet t tactic with
    | none => .error .keyError
    | some group =>
      match processGroup group with
      | .error e => .error e
      | .ok g2 => postProcessingTactics (dictSet t tactic g2) rest

/-- Source `postProcessing(allResults)`. -/
def postProcessing (allResults : Tree) : Except PyError Tree :=
  postProcessingTactics allResults (allResults.map Prod.fst)

/-- The module-level writer loop: one line
`f"{tactic}::{group[key]} {key}\n"` per entry, in tree order then group
order. -/
def writeLines (tree : Tree) : List Str :=
  tree.flatMap (fun p => p.2.map (fun e => p.1 ++ "::".data ++ e.2 ++ ' ' :: e.1 ++ ['\n']))

/-- End-to-end run on an already-chunked document: traversal, then
`postProcessing`, then the writer loop. -/
def outputFromChunks (chunks : List Str) : Except PyError (List Str) :=
  match buildTree chunks with
  | .error e => .error e
  | .ok (allResults, _) =>
    match postProcessing allResults with
    | .error e => .error e
    | .ok t => .ok (writeLines t)

/-- The whole script on a fetched document: insert a newline at every `"><"`
boundary, chunk on `"<g"` / `"</g>"`, then run the traversal, normalizer and
writer. -/
def scrape (rawData : Str) : Except PyError (List Str) :=
  outputFromChunks
    (cutByPhrases (pyReplace "><".data ">\n<".data rawData) "<g".data "</g>".data)

/-- Modelled from the spec: the snapshot normalizer for one group.  Every
entry is visited exactly once; for a dotted id the parent value is looked up
in `orig`, the original, pre-normalization group, so no rewrite can cascade
through an already-rewritten value. -/
def snapEntries (orig : Group) : Group → Except PyError Group
  | [] => .ok []
  | (key, value) :: rest =>
    if pyContains key ".".data then
      match pySplit '.' key with
      | [] => .error .indexError
      | parentKey :: _ =>
        match dictGet orig parentKey with
        | none => .error .keyError
        | some parentValue =>
          match snapEntries orig rest with
          | .error e => .error e
          | .ok rest2 => .ok ((key, parentValue ++ "::".data ++ value) :: rest2)
    else
      match snapEntries orig rest with
      | .error e => .error e
      | .ok rest2 => .ok ((key, value) :: rest2)

/-- Modelled from the spec: snapshot normalization of one group (all parent
values read from the untouched input group). -/
def processGroupSnapshot (group : Group) : Except PyError Group :=
  snapEntries group group

/-- Modelled from the spec: snapshot normalization of the whole tree, one
independent group at a time. -/
def snapTree : Tree → Except PyError Tree
  | [] => .ok []
  | (tactic, group) :: rest =>
    match processGroupSnapshot group with
    | .error e => .error e
    | .ok g2 =>
      match snapTree rest with
      | .error e => .error e
      | .ok r2 => .ok ((tactic, g2) :: r2)

/-- Modelled from the spec: the reference normalizer that snapshots all
parent values before any rewrite. -/
def postProcessingSnapshot (t : Tree) : Except PyError Tree := snapTree t

/-- Modelled from the spec: the chunker contract — each chunk is the text
strictly between one occurrence of the start marker and the NEXT occurrence
of the end marker after it; the scan resumes immediately after that end
marker; chunking stops when either marker is absent.  Fuelled worker. -/
def cutByPhrasesSpecAux (phrase1 phrase2 : Str) : Nat → Str → List Str
  | 0, _ => []
  | fuel + 1, text =>
    match subFind phrase1 text with
    | none => []
    | some i1 =>
      match subFind phrase2 (text.drop (i1 + phrase1.length)) with
      | none => []
      | some j =>
        (text.drop (i1 + phrase1.length)).take j ::
          cutByPhrasesSpecAux phrase1 phrase2 fuel
            ((text.drop (i1 + phrase1.length)).drop (j + phrase2.length))

/-- Modelled from the spec: the chunker contract, with enough fuel for any
input (each round consumes at least `phrase2.length ≥ 1` characters). -/
def cutByPhrasesSpec (text phrase1 phrase2 : Str) : List Str :=
  cutByPhrasesSpecAux phrase1 phrase2 (text.length + 1) text

/-- Well-formedness of an input for the chunker: at every scan step, the
first remaining occurrence of the end marker starts no earlier than the end
of the first remaining occurrence of the start marker.  Fuelled worker. -/
def chunkWFAux (phrase1 phrase2 : Str) : Nat → Str → Bool
  | 0, _ => true
  | fuel + 1, text =>
    match subFind phrase1 text, subFind phrase2 text with
    | some i1, some i2 =>
      decide (i1 + phrase1.length ≤ i2) &&
        chunkWFAux phrase1 phrase2 fuel (text.drop (i2 + phrase2.length))
    | _, _ => true

/-- Well-formedness of an input for the chunker (see `chunkWFAux`). -/
def chunkWF (text phrase1 phrase2 : Str) : Bool :=
  chunkWFAux phrase1 phrase2 (text.length + 1) text

/-! ## General lemmas about substring search and the chunker -/

theorem startsWith_length : ∀ (p s : Str), startsWith p s = true → p.length ≤ s.length := by
  intro p
  induction p with
  | nil => intro s _; simp
  | cons a ps ih =>
    intro s h
    cases s with
    | nil => simp [startsWith] at h
    | cons c cs =>
      simp only [startsWith] at h
      by_cases hac : a = c
      · rw [if_pos hac] at h
        simp only [List.length_cons]
        exact Nat.succ_le_succ (ih cs h)
      · rw [if_neg hac] at h; cases h

theorem subFind_le : ∀ (s p : Str) (i : Nat), subFind p s = some i → i + p.length ≤ s.length := by
  intro s
  induction s with
  | nil =>
    intro p i h
    simp only [subFind] at h
    by_cases hs : startsWith p [] = true
    · rw [if_pos hs] at h
      cases h
      simpa using startsWith_length p [] hs
    · rw [if_neg hs] at h; cases h
  | cons c t ih =>
    intro p i h
    simp only [subFind] at h
    by_cases hs : startsWith p (c :: t) = true
    · rw [if_pos hs] at h
      cases h
      simpa using startsWith_length p (c :: t) hs
    · rw [if_neg hs] at h
      cases hj : subFind p t with
      | none => rw [hj] at h; cases h
      | some j =>
        rw [hj] at h
        dsimp only [Option.map] at h
        cases h
        have := ih p j hj
        simp only [List.length_cons]
        omega

theorem cutByPhrasesAux_fuel (p1 p2 : Str) (hp2 : p2 ≠ []) :
    ∀ (f : Nat) (text : Str) (f' : Nat), text.length < f → text.length < f' →
      cutByPhrasesAux p1 p2 f text = cutByPhrasesAux p1 p2 f' text := by
  intro f
  induction f with
  | zero => intro text f' h _; omega
  | succ f ih =>
    intro text f' h h'
    cases f' with
    | zero => omega
    | succ g =>
      simp only [cutByPhrasesAux]
      cases h1 : subFind p1 text with
      | none => rfl
      | some i1 =>
        cases h2 : subFind p2 text with
        | none => rfl
        | some i2 =>
          dsimp only
          have hle := subFind_le text p2 i2 h2
          have hlen2 : 0 < p2.length := List.length_pos.mpr hp2
          have hdrop : (text.drop (i2 + p2.length)).length < text.length := by
            rw [List.length_drop]; omega
          rw [ih (text.drop (i2 + p2.length)) g (by omega) (by omega)]

theorem cutByPhrases_stop (text p1 p2 : Str)
    (h : subFind p1 text = none ∨ subFind p2 text = none) :
    cutByPhrases text p1 p2 = [] := by
  unfold cutByPhrases
  simp only [cutByPhrasesAux]
  cases h1 : subFind p1 text with
  | none => rfl
  | some i1 =>
    cases h2 : subFind p2 text with
    | none => rfl
    | some i2 =>
      rcases h with h | h
      · rw [h1] at h; cases h
      · rw [h2] at h; cases h

/-! ## C9: the chunker terminates -/

/-- C9: chunking terminates on every input — any fuel beyond the text length
computes the loop's limit (the loop is insensitive to extra fuel), each
iteration strictly shrinks the remaining text (the scan always advances past
an end marker), and when either marker is absent chunking stops without
emitting a chunk. -/
theorem chunking_terminates :
    (∀ (text : Str) (f : Nat), text.length < f →
        cutByPhrasesAux "<g".data "</g>".data f text =
          cutByPhrases text "<g".data "</g>".data)
    ∧ (∀ (text : Str) (i2 : Nat), subFind "</g>".data text = some i2 →
        (text.drop (i2 + ("</g>".data).length)).length < text.length)
    ∧ (∀ text : Str,
        subFind "<g".data text = none ∨ subFind "</g>".data text = none →
        cutByPhrases text "<g".data "</g>".data = []) := by
  refine ⟨?_, ?_, ?_⟩
  · intro text f h
    exact cutByPhrasesAux_fuel "<g".data "</g>".data (by decide) f text (text.length + 1)
      h (by omega)
  · intro text i2 h
    have hle := subFind_le text "</g>".data i2 h
    have h4 : ("</g>".data).length = 4 := rfl
    rw [h4] at hle ⊢
    rw [List.length_drop]
    omega
  · intro text h
    exact cutByPhrases_stop text "<g".data "</g>".data h

/-- C9 witness: the three termination facts at concrete inputs. -/
theorem chunking_terminates_witness :
    cutByPhrasesAux "<g".data "</g>".data 20 "a<g b </g>c".data =
      cutByPhrases "a<g b </g>c".data "<g".data "</g>".data
    ∧ ("a<g b </g>c".data.drop (6 + ("</g>".data).length)).length <
        ("a<g b </g>c".data).length
    ∧ cutByPhrases "xyz".data "<g".data "</g>".data = [] :=
  ⟨chunking_terminates.1 "a<g b </g>c".data 20 (by decide),
   chunking_terminates.2.1 "a<g b </g>c".data 6 (by rfl),
   chunking_terminates.2.2 "xyz".data (Or.inl (by rfl))⟩

/-! ## General lemmas about the traversal loop -/

theorem processChunks_append (l1 l2 : List Str) :
    ∀ st : Tree × Group,
      processChunks st (l1 ++ l2) =
        match processChunks st l1 with
        | .error e => .error e
        | .ok st2 => processChunks st2 l2 := by
  induction l1 with
  | nil => intro st; simp [processChunks]
  | cons c l1 ih =>
    intro st
    simp only [List.cons_append, processChunks]
    cases processChunk st c with
    | error e => rfl
    | ok st2 => exact ih st2

theorem processChunk_noTacticLabel_fixes_tree (st : Tree × Group) (c : Str)
    (h : pyContains c "tactic-label".data = false) (st2 : Tree × Group)
    (hok : processChunk st c = .ok st2) : st2.1 = st.1 := by
  unfold processChunk at hok
  rw [h] at hok
  by_cases ht : pyContains c "technique".data = true
  · rw [if_pos ht] at hok
    cases hx : extractTechnique c with
    | error e => rw [hx] at hok; cases hok
    | ok p => rw [hx] at hok; cases p; cases hok; rfl
  · rw [if_neg ht] at hok
    simp only [if_neg] at hok
    cases hok
    rfl

theorem processChunks_noTacticLabel_fixes_tree :
    ∀ (l : List Str) (st st' : Tree × Group),
      (∀ c ∈ l, pyContains c "tactic-label".data = false) →
      processChunks st l = .ok st' → st'.1 = st.1 := by
  intro l
  induction l with
  | nil => intro st st' _ hok; cases hok; rfl
  | cons c rest ih =>
    intro st st' hall hok
    simp only [processChunks] at hok
    cases hc : processChunk st c with
    | error e => rw [hc] at hok; cases hok
    | ok st2 =>
      rw [hc] at hok
      have h1 : st2.1 = st.1 :=
        processChunk_noTacticLabel_fixes_tree st c (hall c (by simp)) st2 hc
      have h2 : st'.1 = st2.1 := ih st2 st' (fun d hd => hall d (by simp [hd])) hok
      rw [h2, h1]

/-! ## C2: a tactic-label chunk commits the accumulated group and resets -/

/-- C2: each tactic-label chunk commits the group accumulated so far under
the (suffix-stripped) tactic name read from that label and resets the
accumulator to the empty group; and the chunk sequence
Technique "T1:Alpha", Technique "T2:Beta", TacticLabel "Collection"
produces the tree mapping "Collection" to T1 ↦ Alpha, T2 ↦ Beta. -/
theorem tacticLabel_commits_accumulated_group :
    (∀ (tree : Tree) (group : Group) (chunk nm : Str),
        pyContains chunk "technique".data = false →
        pyContains chunk "tactic-label".data = true →
        extractTactic chunk = some nm →
        processChunk (tree, group) chunk =
          .ok (dictSet tree (pyReplace " Micro-objective".data [] nm) group, ([] : Group)))
    ∧ buildTree ["technique\n<tspan>T1:Alpha</tspan>".data,
        "technique\n<tspan>T2:Beta</tspan>".data,
        "tactic-label\n<tspan>Collection</tspan>".data] =
      .ok ([("Collection".data, [("T1".data, "Alpha".data), ("T2".data, "Beta".data)])], []) := by
  constructor
  · intro tree group chunk nm h1 h2 h3
    unfold processChunk
    rw [h1, h2, h3]
    simp
  · rfl

/-- C2 witness: the commit-and-reset step at a concrete state and chunk. -/
theorem tacticLabel_commits_accumulated_group_witness :
    processChunk (([] : Tree), [("T1".data, "Alpha".data)])
        "tactic-label\n<tspan>Collection</tspan>".data =
      .ok (dictSet [] (pyReplace " Micro-objective".data [] "Collection".data)
        [("T1".data, "Alpha".data)], ([] : Group)) :=
  tacticLabel_commits_accumulated_group.1 [] [("T1".data, "Alpha".data)]
    "tactic-label\n<tspan>Collection</tspan>".data "Collection".data
    (by rfl) (by rfl) (by rfl)

/-! ## C3: extraction failure is an unguarded IndexError, not a named error -/

/-- C3 (code_bug record): on a chunk with no line containing the text-span
marker, and on a chunk whose reconstructed label has no colon,
`extractTechnique` raises a plain `IndexError` (`dataLines[0]` on an empty
list, `techniqueSplit[1]` on a one-element list); the source has no
`MalformedChunk`-style named error at all. -/
theorem extractTechnique_unguarded_indexError :
    extractTechnique "technique".data = .error .indexError ∧
    extractTechnique "technique\n<tspan>NoColon</tspan>".data = .error .indexError :=
  ⟨rfl, rfl⟩

/-! ## C7: missing parent id is an unguarded KeyError, not a named error -/

/-- C7 (code_bug record): normalizing a group holding a dotted id whose
parent id is absent raises a plain `KeyError` (`group[parentKey]`); the
source has no `MissingParent`-style named error at all. -/
theorem postProcessing_missing_parent_keyError :
    postProcessing [("Tac".data, [("T1.2".data, "Beta".data)])] = .error .keyError :=
  rfl

/-! ## C10: technique chunks after the last tactic label never reach the output -/

/-- C10: chunks after the last tactic-label chunk contribute nothing — on a
successful run, dropping any tactic-label-free tail of the chunk sequence
leaves the output file unchanged; and a successful run on a sequence with no
tactic-label chunk at all writes nothing. -/
theorem trailing_techniques_never_written :
    (∀ (pre post : List Str) (out : List Str),
        (∀ c ∈ post, pyContains c "tactic-label".data = false) →
        outputFromChunks (pre ++ post) = .ok out →
        outputFromChunks pre = .ok out)
    ∧ (∀ (post : List Str) (out : List Str),
        (∀ c ∈ post, pyContains c "tactic-label".data = false) →
        outputFromChunks post = .ok out → out = []) := by
  have main : ∀ (pre post : List Str) (out : List Str),
      (∀ c ∈ post, pyContains c "tactic-label".data = false) →
      outputFromChunks (pre ++ post) = .ok out →
      outputFromChunks pre = .ok out := by
    intro pre post out hpost hok
    unfold outputFromChunks at hok ⊢
    unfold buildTree at hok ⊢
    rw [processChunks_append] at hok
    cases hpre : processChunks ([], []) pre with
    | error e => rw [hpre] at hok; cases hok
    | ok st1 =>
      rw [hpre] at hok
      dsimp only at hok ⊢
      cases hp2 : processChunks st1 post with
      | error e => rw [hp2] at hok; cases hok
      | ok st2 =>
        rw [hp2] at hok
        have htree : st2.1 = st1.1 :=
          processChunks_noTacticLabel_fixes_tree post st1 st2 hpost hp2
        cases st1 with
        | mk t1 g1 =>
          cases st2 with
          | mk t2 g2 =>
            simp only at htree
            rw [htree] at hok
            exact hok
  constructor
  · exact main
  · intro post out hpost hok
    have h0 : outputFromChunks ([] ++ post) = .ok out := by
      rw [List.nil_append]; exact hok
    have := main [] post out hpost h0
    have hempty : outputFromChunks [] = .ok ([] : List Str) := rfl
    rw [hempty] at this
    cases this
    rfl

/-- C10 witness: a technique chunk after the last tactic label is dropped
from the output. -/
theorem trailing_techniques_never_written_witness :
    outputFromChunks ["technique\n<tspan>T8:Eps</tspan>".data,
        "tactic-label\n<tspan>Persistence</tspan>".data] =
      .ok ["Persistence::Eps T8\n".data] :=
  trailing_techniques_never_written.1
    ["technique\n<tspan>T8:Eps</tspan>".data, "tactic-label\n<tspan>Persistence</tspan>".data]
    ["technique\n<tspan>T7:Delta</tspan>".data]
    ["Persistence::Eps T8\n".data]
    (by decide) (by rfl)

/-! ## C1: techniques before the first tactic label are committed, not lost -/

/-- C1 counterexample: a technique chunk encountered before any tactic-label
chunk DOES contribute an entry to the final TaxonomyTree and to the output
file — it is committed under the first subsequent tactic label. -/
theorem technique_before_first_label_reaches_output :
    buildTree ["technique\n<tspan>T9:Gamma</tspan>".data,
        "tactic-label\n<tspan>Execution</tspan>".data] =
      .ok ([("Execution".data, [("T9".data, "Gamma".data)])], [])
    ∧ outputFromChunks ["technique\n<tspan>T9:Gamma</tspan>".data,
        "tactic-label\n<tspan>Execution</tspan>".data] =
      .ok ["Execution::Gamma T9\n".data]
    ∧ (["Execution::Gamma T9\n".data] : List Str) ≠ [] :=
  ⟨rfl, rfl, by decide⟩

/-- C1 (amended): technique chunks encountered before any tactic-label
chunk are not lost when some tactic-label chunk follows: the group
accumulated over a tactic-label-free prefix is committed under the first
tactic label's (suffix-stripped) name. -/
theorem technique_before_first_label_committed :
    ∀ (pre : List Str) (tac nm : Str) (t : Tree) (g : Group),
      (∀ c ∈ pre, pyContains c "tactic-label".data = false) →
      pyContains tac "technique".data = false →
      pyContains tac "tactic-label".data = true →
      extractTactic tac = some nm →
      buildTree pre = .ok (t, g) →
      t = [] ∧
        buildTree (pre ++ [tac]) =
          .ok ([(pyReplace " Micro-objective".data [] nm, g)], []) := by
  intro pre tac nm t g hpre h1 h2 h3 hok
  have htree : t = [] := by
    have := processChunks_noTacticLabel_fixes_tree pre ([], []) (t, g) hpre hok
    exact this
  refine ⟨htree, ?_⟩
  unfold buildTree at hok ⊢
  rw [processChunks_append, hok]
  simp only [processChunks, processChunk]
  rw [h1, h2, h3]
  subst htree
  simp [dictSet]

/-- C1 witness: a concrete tactic-label-free prefix committed under the
first tactic label. -/
theorem technique_before_first_label_committed_witness :
    ([("T5".data, "Zeta".data)] : Group) = [("T5".data, "Zeta".data)] ∧
    buildTree (["technique\n<tspan>T5:Zeta</tspan>".data] ++
        ["tactic-label\n<tspan>Impact</tspan>".data]) =
      .ok ([(pyReplace " Micro-objective".data [] "Impact".data,
        [("T5".data, "Zeta".data)])], []) := by
  have h := technique_before_first_label_committed
    ["technique\n<tspan>T5:Zeta</tspan>".data]
    "tactic-label\n<tspan>Impact</tspan>".data "Impact".data
    [] [("T5".data, "Zeta".data)]
    (by decide) (by rfl) (by rfl) (by rfl) (by rfl)
  exact ⟨rfl, h.2⟩

/-! ## General lemmas about replace and split -/

theorem subFind_cons_none {old : Str} {c : Char} {t : Str}
    (h : subFind old (c :: t) = none) :
    startsWith old (c :: t) = false ∧ subFind old t = none := by
  simp only [subFind] at h
  by_cases hs : startsWith old (c :: t) = true
  · rw [if_pos hs] at h; cases h
  · rw [if_neg hs] at h
    refine ⟨Bool.eq_false_iff.mpr hs, ?_⟩
    cases ht : subFind old t with
    | none => rfl
    | some j => rw [ht] at h; dsimp only [Option.map] at h; cases h

theorem pyReplaceAux_no_occurrence (old new : Str) :
    ∀ (f : Nat) (s : Str), s.length < f → subFind old s = none →
      pyReplaceAux old new f s = s := by
  intro f
  induction f with
  | zero => intro s h _; omega
  | succ f ih =>
    intro s h hnone
    cases s with
    | nil =>
      have hold : old ≠ [] := by
        intro he
        subst he
        simp [subFind, startsWith] at hnone
      simp [pyReplaceAux, hold]
    | cons c t =>
      obtain ⟨hsw, ht⟩ := subFind_cons_none hnone
      have hold : old ≠ [] := by
        intro he
        subst he
        simp [startsWith] at hsw
      simp only [pyReplaceAux]
      rw [if_neg hold, hsw]
      simp only [Bool.false_eq_true, if_false]
      have : pyReplaceAux old new f t = t := by
        apply ih t _ ht
        simp only [List.length_cons] at h
        omega
      rw [this]

/-! ## C8: the "Micro-objective" fix removes every occurrence -/

/-- C8 counterexample: a tactic label in which `" Micro-objective"` occurs
but not as a suffix is still changed — the occurrence is removed from the
middle of the label, so labels without the suffix are NOT left unchanged. -/
theorem micro_objective_not_suffix_only :
    buildTree ["tactic-label\n<tspan>Anti Micro-objective Analysis</tspan>".data] =
      .ok ([("Anti Analysis".data, [])], [])
    ∧ ("Anti Analysis".data : Str) ≠ "Anti Micro-objective Analysis".data :=
  ⟨rfl, by decide⟩

/-- C8 (amended): the traversal removes every occurrence of the literal
substring `" Micro-objective"` from an extracted tactic label (in particular
a trailing one), and labels with no occurrence are unchanged; the label
"Defense Evasion Micro-objective" yields the tactic key "Defense Evasion". -/
theorem micro_objective_removed_everywhere :
    (∀ label : Str, pyContains label " Micro-objective".data = false →
        pyReplace " Micro-objective".data [] label = label)
    ∧ buildTree ["tactic-label\n<tspan>Defense Evasion Micro-objective</tspan>".data] =
        .ok ([("Defense Evasion".data, [])], []) := by
  constructor
  · intro label h
    have hnone : subFind " Micro-objective".data label = none := by
      unfold pyContains at h
      cases hs : subFind " Micro-objective".data label with
      | none => rfl
      | some i => rw [hs] at h; cases h
    exact pyReplaceAux_no_occurrence _ _ _ label (by omega) hnone
  · rfl

/-- C8 witness: a label with no occurrence of the substring is unchanged. -/
theorem micro_objective_removed_everywhere_witness :
    pyReplace " Micro-objective".data [] "Collection".data = "Collection".data :=
  micro_objective_removed_everywhere.1 "Collection".data (by rfl)

/-! ## General lemmas about pySplit -/

theorem pySplit_ne_nil (sep : Char) : ∀ s : Str, pySplit sep s ≠ [] := by
  intro s
  cases s with
  | nil => simp [pySplit]
  | cons c t =>
    simp only [pySplit]
    by_cases h : c = sep
    · rw [if_pos h]; simp
    · rw [if_neg h]
      cases pySplit sep t <;> simp

theorem pySplit_not_mem (sep : Char) : ∀ s : Str, sep ∉ s → pySplit sep s = [s] := by
  intro s
  induction s with
  | nil => intro _; rfl
  | cons c t ih =>
    intro h
    have hc : ¬c = sep := fun he => h (by rw [he]; exact List.mem_cons_self _ _)
    have ht : sep ∉ t := fun hm => h (List.mem_cons_of_mem _ hm)
    simp only [pySplit]
    rw [if_neg hc, ih ht]

theorem pySplit_mem (sep : Char) : ∀ s : Str, sep ∈ s →
    pySplit sep s = s.takeWhile (fun c => decide (c ≠ sep)) ::
      pySplit sep ((s.dropWhile (fun c => decide (c ≠ sep))).drop 1) := by
  intro s
  induction s with
  | nil => intro h; cases h
  | cons c t ih =>
    intro h
    by_cases hc : c = sep
    · subst hc
      simp only [pySplit, if_pos rfl, List.takeWhile_cons, List.dropWhile_cons]
      simp
    · have hmem : sep ∈ t := by
        rcases List.mem_cons.mp h with he | hm
        · exact absurd he.symm hc
        · exact hm
      simp only [pySplit]
      rw [if_neg hc, ih hmem]
      simp only [List.takeWhile_cons, List.dropWhile_cons]
      have hpc : (fun x => decide (x ≠ sep)) c = true := by
        simp [hc]
      simp [hc]

theorem takeWhile_of_not_mem (sep : Char) : ∀ s : Str,
    sep ∉ s → s.takeWhile (fun c => decide (c ≠ sep)) = s := by
  intro s
  induction s with
  | nil => intro _; rfl
  | cons c t ih =>
    intro h
    have hc : ¬c = sep := fun he => h (by rw [he]; exact List.mem_cons_self _ _)
    have ht : sep ∉ t := fun hm => h (List.mem_cons_of_mem _ hm)
    simp only [List.takeWhile_cons]
    simp [hc, ih ht]
    intro x hx he
    exact ht (he ▸ hx)

theorem pySplit_two (sep : Char) (s : Str) (h : sep ∈ s) :
    ∃ tail, pySplit sep s =
      s.takeWhile (fun c => decide (c ≠ sep)) ::
        (((s.dropWhile (fun c => decide (c ≠ sep))).drop 1).takeWhile
          (fun c => decide (c ≠ sep))) :: tail := by
  rw [pySplit_mem sep s h]
  by_cases hr : sep ∈ (s.dropWhile (fun c => decide (c ≠ sep))).drop 1
  · rw [pySplit_mem sep _ hr]
    exact ⟨_, rfl⟩
  · rw [pySplit_not_mem sep _ hr]
    refine ⟨[], ?_⟩
    rw [takeWhile_of_not_mem sep _ hr]

/-! ## C4: how extractTechnique splits the reconstructed label -/

/-- C4 counterexample: when the text after the first colon itself contains a
colon, the returned name is NOT the entire remainder — only the portion up
to the second colon is kept. -/
theorem extractTechnique_drops_text_after_second_colon :
    extractTechnique "<tspan>T1:Alpha:Beta</tspan>".data = .ok ("T1".data, "Alpha".data)
    ∧ ("Alpha".data : Str) ≠ "Alpha:Beta".data :=
  ⟨rfl, by decide⟩

/-- C4 (amended): for a chunk whose reconstructed label text contains a
colon, `extractTechnique` returns as id the trimmed portion before the first
colon, and as name the trimmed portion strictly between the first colon and
the next colon (the whole remainder only when no second colon exists). -/
theorem extractTechnique_splits_at_first_colon :
    ∀ (chunk first : Str) (rest : List Str),
      techniqueFragments chunk = first :: rest →
      ∀ L : Str, L = rest.foldl (fun acc line => acc ++ ' ' :: line) first →
      ':' ∈ L →
      extractTechnique chunk =
        .ok (pyStrip (L.takeWhile (fun c => decide (c ≠ ':'))),
          pyStrip (((L.dropWhile (fun c => decide (c ≠ ':'))).drop 1).takeWhile
            (fun c => decide (c ≠ ':')))) := by
  intro chunk first rest hfrag L hL hcolon
  unfold extractTechnique
  rw [hfrag]
  dsimp only
  rw [← hL]
  obtain ⟨tail, htail⟩ := pySplit_two ':' L hcolon
  rw [htail]

/-- C4 witness: the amended split at a concrete chunk with two colons. -/
theorem extractTechnique_splits_at_first_colon_witness :
    extractTechnique "<tspan>T4:Delta:Extra</tspan>".data =
      .ok (pyStrip ("T4:Delta:Extra".data.takeWhile (fun c => decide (c ≠ ':'))),
        pyStrip ((("T4:Delta:Extra".data.dropWhile (fun c => decide (c ≠ ':'))).drop
          1).takeWhile (fun c => decide (c ≠ ':')))) :=
  extractTechnique_splits_at_first_colon "<tspan>T4:Delta:Extra</tspan>".data
    "T4:Delta:Extra".data [] (by rfl) "T4:Delta:Extra".data (by rfl) (by decide)

/-! ## General lemmas about dictionaries -/

theorem dictGet_append {α : Type} : ∀ (a b : List (Str × α)) (k : Str),
    dictGet (a ++ b) k =
      match dictGet a k with
      | some v => some v
      | none => dictGet b k := by
  intro a
  induction a with
  | nil => intro b k; rfl
  | cons p a ih =>
    intro b k
    simp only [List.cons_append, dictGet, List.append_eq]
    by_cases h : p.1 = k
    · rw [if_pos h, if_pos h]
    · rw [if_neg h, if_neg h, ih]

theorem dictGet_eq_none {α : Type} : ∀ (a : List (Str × α)) (k : Str),
    k ∉ a.map Prod.fst → dictGet a k = none := by
  intro a
  induction a with
  | nil => intro k _; rfl
  | cons p a ih =>
    intro k h
    simp only [List.map_cons, List.mem_cons] at h
    push_neg at h
    simp only [dictGet]
    rw [if_neg (fun he => h.1 he.symm), ih k h.2]

theorem map_update_of_not_mem {α : Type} : ∀ (l : List (Str × α)) (k : Str) (v : α),
    k ∉ l.map Prod.fst →
    l.map (fun p => if p.1 = k then (k, v) else p) = l := by
  intro l k v h
  have hcg : ∀ p ∈ l, (fun p : Str × α => if p.1 = k then (k, v) else p) p = id p := by
    intro p hp
    have hne : p.1 ≠ k := fun he => h (List.mem_map.mpr ⟨p, hp, he⟩)
    simp [hne]
  rw [List.map_congr_left hcg, List.map_id]

theorem dictSet_middle {α : Type} (a b : List (Str × α)) (k : Str) (v w : α)
    (ha : k ∉ a.map Prod.fst) (hb : k ∉ b.map Prod.fst) :
    dictSet (a ++ (k, v) :: b) k w = a ++ (k, w) :: b := by
  unfold dictSet
  have hmem : k ∈ (a ++ (k, v) :: b).map Prod.fst := by
    rw [List.map_append, List.map_cons]
    exact List.mem_append_right _ (List.mem_cons_self _ _)
  rw [if_pos hmem, List.map_append, List.map_cons]
  rw [map_update_of_not_mem a k w ha, map_update_of_not_mem b k w hb]
  simp

theorem pyContains_singleton (c : Char) : ∀ s : Str, pyContains s [c] = true ↔ c ∈ s := by
  intro s
  induction s with
  | nil => simp [pyContains, subFind, startsWith]
  | cons d t ih =>
    show (subFind [c] (d :: t)).isSome = true ↔ c ∈ d :: t
    simp only [subFind]
    by_cases hcd : c = d
    · subst hcd
      simp [startsWith]
    · have hsw : startsWith [c] (d :: t) = false := by
        simp [startsWith, hcd]
      rw [hsw]
      simp only [Bool.false_eq_true, if_false]
      have hiso : (Option.map (fun n => n + 1) (subFind [c] t)).isSome =
          (subFind [c] t).isSome := by
        cases subFind [c] t <;> rfl
      rw [hiso]
      have hih : (subFind [c] t).isSome = true ↔ c ∈ t := ih
      rw [hih]
      simp [List.mem_cons, hcd]

theorem pyContains_singleton_false (s : Str) (c : Char) (h : c ∉ s) :
    pyContains s [c] = false := by
  cases hb : pyContains s [c] with
  | false => rfl
  | true => exact absurd ((pyContains_singleton c s).mp hb) h

theorem pySplit_head_not_mem (sep : Char) (s h : Str) (t' : List Str)
    (heq : pySplit sep s = h :: t') : sep ∉ h := by
  by_cases hm : sep ∈ s
  · rw [pySplit_mem sep s hm] at heq
    have hh : h = s.takeWhile (fun c => decide (c ≠ sep)) := by
      cases heq; rfl
    intro hsh
    rw [hh] at hsh
    have := List.mem_takeWhile_imp hsh
    simp at this
  · rw [pySplit_not_mem sep s hm] at heq
    have hh : h = s := by cases heq; rfl
    rw [hh]
    exact hm

/-! ## Lemmas about the snapshot normalizer -/

theorem snapEntries_ok_facts (O : Group) : ∀ (l l' : Group),
    snapEntries O l = .ok l' →
    l'.map Prod.fst = l.map Prod.fst ∧
      (∀ k : Str, pyContains k ".".data = false → dictGet l' k = dictGet l k) := by
  intro l
  induction l with
  | nil =>
    intro l' h
    cases h
    exact ⟨rfl, fun k _ => rfl⟩
  | cons p rest ih =>
    intro l' h
    cases p with
    | mk key value =>
      simp only [snapEntries] at h
      by_cases hdot : pyContains key ".".data = true
      · rw [if_pos hdot] at h
        cases hsp : pySplit '.' key with
        | nil => rw [hsp] at h; cases h
        | cons pk tl =>
          rw [hsp] at h
          dsimp only at h
          cases hpv : dictGet O pk with
          | none => rw [hpv] at h; cases h
          | some pv =>
            rw [hpv] at h
            dsimp only at h
            cases hr : snapEntries O rest with
            | error e => rw [hr] at h; cases h
            | ok r2 =>
              rw [hr] at h
              dsimp only at h
              cases h
              obtain ⟨ihk, ihg⟩ := ih r2 hr
              constructor
              · simp [ihk]
              · intro k hk
                have hkne : ¬key = k := by
                  intro he
                  rw [← he] at hk
                  rw [hdot] at hk
                  cases hk
                simp only [dictGet]
                rw [if_neg hkne, if_neg hkne]
                exact ihg k hk
      · rw [if_neg hdot] at h
        cases hr : snapEntries O rest with
        | error e => rw [hr] at h; cases h
        | ok r2 =>
          rw [hr] at h
          dsimp only at h
          cases h
          obtain ⟨ihk, ihg⟩ := ih r2 hr
          constructor
          · simp [ihk]
          · intro k hk
            simp only [dictGet]
            by_cases hke : key = k
            · rw [if_pos hke, if_pos hke]
            · rw [if_neg hke, if_neg hke]
              exact ihg k hk

theorem snapEntries_append (O : Group) : ∀ (a b : Group),
    snapEntries O (a ++ b) =
      match snapEntries O a with
      | .error e => .error e
      | .ok a2 =>
        match snapEntries O b with
        | .error e => .error e
        | .ok b2 => .ok (a2 ++ b2) := by
  intro a
  induction a with
  | nil =>
    intro b
    simp only [List.nil_append, snapEntries]
    cases snapEntries O b <;> simp
  | cons p a ih =>
    intro b
    cases p with
    | mk key value =>
      simp only [List.cons_append, snapEntries, List.append_eq]
      by_cases hdot : pyContains key ".".data = true
      · rw [if_pos hdot, if_pos hdot]
        cases hsp : pySplit '.' key with
        | nil => rfl
        | cons pk tl =>
          dsimp only
          cases hpv : dictGet O pk with
          | none => rfl
          | some pv =>
            dsimp only
            rw [ih b]
            cases ha : snapEntries O a <;> cases hb : snapEntries O b <;> simp
      · rw [if_neg hdot, if_neg hdot]
        rw [ih b]
        cases ha : snapEntries O a <;> cases hb : snapEntries O b <;> simp

theorem processGroupKeys_snap :
    ∀ (todo done done' : Group),
      ((done ++ todo).map Prod.fst).Nodup →
      snapEntries (done ++ todo) done = .ok done' →
      processGroupKeys (done' ++ todo) (todo.map Prod.fst) =
        match snapEntries (done ++ todo) todo with
        | .error e => .error e
        | .ok t2 => .ok (done' ++ t2) := by
  intro todo
  induction todo with
  | nil =>
    intro done done' hnd hsnap
    simp only [List.map_nil, processGroupKeys, List.append_nil, snapEntries]
  | cons p todo ih =>
    intro done done' hnd hsnap
    cases p with
    | mk key value =>
      have hkeys := (snapEntries_ok_facts _ done done' hsnap).1
      have hgets := (snapEntries_ok_facts _ done done' hsnap).2
      have hmap : (done ++ (key, value) :: todo).map Prod.fst
          = done.map Prod.fst ++ key :: todo.map Prod.fst := by
        simp
      rw [hmap] at hnd
      have hkdone : key ∉ done.map Prod.fst := by
        have hdisj := List.disjoint_of_nodup_append hnd
        intro hk
        exact hdisj hk (List.mem_cons_self _ _)
      have hcons : (key :: todo.map Prod.fst).Nodup := hnd.of_append_right
      have hktodo : key ∉ todo.map Prod.fst := (List.nodup_cons.mp hcons).1
      have hkdone' : key ∉ done'.map Prod.fst := by rw [hkeys]; exact hkdone
      simp only [List.map_cons, processGroupKeys]
      by_cases hdot : pyContains key ".".data = true
      · rw [if_pos hdot]
        cases hsp : pySplit '.' key with
        | nil => exact absurd hsp (pySplit_ne_nil '.' key)
        | cons pk tl =>
          dsimp only
          have hpkdot : pyContains pk ".".data = false :=
            pyContains_singleton_false pk '.' (pySplit_head_not_mem '.' key pk tl hsp)
          have hgpk : dictGet (done' ++ (key, value) :: todo) pk
              = dictGet (done ++ (key, value) :: todo) pk := by
            rw [dictGet_append, dictGet_append, hgets pk hpkdot]
          rw [hgpk]
          cases hpv : dictGet (done ++ (key, value) :: todo) pk with
          | none =>
            dsimp only
            simp only [snapEntries]
            rw [if_pos hdot, hsp]
            dsimp only
            rw [hpv]
          | some pv =>
            dsimp only
            have hgkey : dictGet (done' ++ (key, value) :: todo) key = some value := by
              rw [dictGet_append, dictGet_eq_none done' key hkdone']
              simp [dictGet]
            rw [hgkey]
            dsimp only
            rw [dictSet_middle done' todo key value (pv ++ "::".data ++ value) hkdone' hktodo]
            have hO : (done ++ [(key, value)]) ++ todo = done ++ (key, value) :: todo := by
              simp
            rw [show done' ++ (key, pv ++ "::".data ++ value) :: todo
                = (done' ++ [(key, pv ++ "::".data ++ value)]) ++ todo by simp]
            have hsnap2 : snapEntries ((done ++ [(key, value)]) ++ todo)
                (done ++ [(key, value)])
                = .ok (done' ++ [(key, pv ++ "::".data ++ value)]) := by
              rw [hO, snapEntries_append, hsnap]
              dsimp only
              simp only [snapEntries]
              rw [if_pos hdot, hsp]
              dsimp only
              rw [hpv]
            have hnd2 : (((done ++ [(key, value)]) ++ todo).map Prod.fst).Nodup := by
              rw [hO, hmap]
              exact hnd
            have hrec := ih (done ++ [(key, value)])
              (done' ++ [(key, pv ++ "::".data ++ value)]) hnd2 hsnap2
            rw [hO] at hrec
            rw [hrec]
            simp only [snapEntries]
            rw [if_pos hdot, hsp]
            dsimp only
            rw [hpv]
            dsimp only
            cases snapEntries (done ++ (key, value) :: todo) todo <;> simp
      · rw [if_neg hdot]
        have hO : (done ++ [(key, value)]) ++ todo = done ++ (key, value) :: todo := by
          simp
        rw [show done' ++ (key, value) :: todo = (done' ++ [(key, value)]) ++ todo by simp]
        have hsnap2 : snapEntries ((done ++ [(key, value)]) ++ todo) (done ++ [(key, value)])
            = .ok (done' ++ [(key, value)]) := by
          rw [hO, snapEntries_append, hsnap]
          dsimp only
          simp only [snapEntries]
          rw [if_neg hdot]
        have hnd2 : (((done ++ [(key, value)]) ++ todo).map Prod.fst).Nodup := by
          rw [hO, hmap]
          exact hnd
        have hrec := ih (done ++ [(key, value)]) (done' ++ [(key, value)]) hnd2 hsnap2
        rw [hO] at hrec
        rw [hrec]
        simp only [snapEntries]
        rw [if_neg hdot]
        cases snapEntries (done ++ (key, value) :: todo) todo <;> simp

theorem processGroup_eq_snapshot (group : Group)
    (h : (group.map Prod.fst).Nodup) :
    processGroup group = processGroupSnapshot group := by
  have := processGroupKeys_snap group [] [] (by simpa using h) (by rfl)
  simp only [List.nil_append] at this
  unfold processGroup processGroupSnapshot
  rw [this]
  cases snapEntries group group <;> simp

theorem snapTree_keys : ∀ (t t' : Tree), snapTree t = .ok t' →
    t'.map Prod.fst = t.map Prod.fst := by
  intro t
  induction t with
  | nil => intro t' h; cases h; rfl
  | cons p rest ih =>
    intro t' h
    cases p with
    | mk tactic group =>
      simp only [snapTree] at h
      cases hg : processGroupSnapshot group with
      | error e => rw [hg] at h; cases h
      | ok g2 =>
        rw [hg] at h
        dsimp only at h
        cases hr : snapTree rest with
        | error e => rw [hr] at h; cases h
        | ok r2 =>
          rw [hr] at h
          dsimp only at h
          cases h
          simp [ih r2 hr]

theorem snapTree_append : ∀ (a b : Tree),
    snapTree (a ++ b) =
      match snapTree a with
      | .error e => .error e
      | .ok a2 =>
        match snapTree b with
        | .error e => .error e
        | .ok b2 => .ok (a2 ++ b2) := by
  intro a
  induction a with
  | nil =>
    intro b
    simp only [List.nil_append, snapTree]
    cases snapTree b <;> simp
  | cons p a ih =>
    intro b
    cases p with
    | mk tactic group =>
      simp only [List.cons_append, snapTree, List.append_eq]
      cases hg : processGroupSnapshot group with
      | error e => rfl
      | ok g2 =>
        dsimp only
        rw [ih b]
        cases ha : snapTree a <;> cases hb : snapTree b <;> simp

theorem postProcessingTactics_snap :
    ∀ (todo done done' : Tree),
      ((done ++ todo).map Prod.fst).Nodup →
      (∀ p ∈ todo, ((p.2 : Group).map Prod.fst).Nodup) →
      snapTree done = .ok done' →
      postProcessingTactics (done' ++ todo) (todo.map Prod.fst) =
        match snapTree todo with
        | .error e => .error e
        | .ok t2 => .ok (done' ++ t2) := by
  intro todo
  induction todo with
  | nil =>
    intro done done' hnd hgs hsnap
    simp only [List.map_nil, postProcessingTactics, List.append_nil, snapTree]
  | cons p todo ih =>
    intro done done' hnd hgs hsnap
    cases p with
    | mk tactic group =>
      have hkeys := snapTree_keys done done' hsnap
      have hmap : (done ++ (tactic, group) :: todo).map Prod.fst
          = done.map Prod.fst ++ tactic :: todo.map Prod.fst := by
        simp
      rw [hmap] at hnd
      have hkdone : tactic ∉ done.map Prod.fst := by
        have hdisj := List.disjoint_of_nodup_append hnd
        intro hk
        exact hdisj hk (List.mem_cons_self _ _)
      have hcons : (tactic :: todo.map Prod.fst).Nodup := hnd.of_append_right
      have hktodo : tactic ∉ todo.map Prod.fst := (List.nodup_cons.mp hcons).1
      have hkdone' : tactic ∉ done'.map Prod.fst := by rw [hkeys]; exact hkdone
      simp only [List.map_cons, postProcessingTactics]
      have hget : dictGet (done' ++ (tactic, group) :: todo) tactic = some group := by
        rw [dictGet_append, dictGet_eq_none done' tactic hkdone']
        simp [dictGet]
      rw [hget]
      dsimp only
      have hgnd : (group.map Prod.fst).Nodup := hgs (tactic, group) (List.mem_cons_self _ _)
      rw [processGroup_eq_snapshot group hgnd]
      cases hg : processGroupSnapshot group with
      | error e =>
        dsimp only
        simp only [snapTree]
        rw [hg]
      | ok g2 =>
        dsimp only
        rw [dictSet_middle done' todo tactic group g2 hkdone' hktodo]
        have hO : (done ++ [(tactic, group)]) ++ todo = done ++ (tactic, group) :: todo := by
          simp
        rw [show done' ++ (tactic, g2) :: todo = (done' ++ [(tactic, g2)]) ++ todo by simp]
        have hsnap2 : snapTree (done ++ [(tactic, group)]) = .ok (done' ++ [(tactic, g2)]) := by
          rw [snapTree_append, hsnap]
          dsimp only
          simp only [snapTree]
          rw [hg]
        have hnd2 : (((done ++ [(tactic, group)]) ++ todo).map Prod.fst).Nodup := by
          rw [hO, hmap]
          exact hnd
        have hrec := ih (done ++ [(tactic, group)]) (done' ++ [(tactic, g2)]) hnd2
          (fun q hq => hgs q (List.mem_cons_of_mem _ hq)) hsnap2
        rw [hrec]
        simp only [snapTree]
        rw [hg]
        dsimp only
        cases snapTree todo <;> simp

/-! ## C5: the in-place normalizer equals the snapshot reference -/

/-- C5: on any tree with duplicate-free keys (as every tree built by the
traversal is), the source's in-place single-pass normalizer is extensionally
equal to the reference that snapshots all parent values before any rewrite —
each entry is visited once and every dotted id's name is rewritten with the
original parent value; and on the claim's concrete instance, T001.002 is
rewritten to Alpha::Beta. -/
theorem postProcessing_eq_snapshot :
    (∀ tree : Tree, (tree.map Prod.fst).Nodup →
        (∀ p ∈ tree, ((p.2 : Group).map Prod.fst).Nodup) →
        postProcessing tree = postProcessingSnapshot tree)
    ∧ postProcessing [("Tac".data, [("T001".data, "Alpha".data),
        ("T001.002".data, "Beta".data)])] =
      .ok [("Tac".data, [("T001".data, "Alpha".data),
        ("T001.002".data, "Alpha::Beta".data)])] := by
  constructor
  · intro tree hnd hgs
    have hmain := postProcessingTactics_snap tree [] [] (by simpa using hnd) hgs (by rfl)
    simp only [List.nil_append] at hmain
    unfold postProcessing postProcessingSnapshot
    rw [hmain]
    cases snapTree tree <;> simp
  · rfl

/-- C5 witness: in-place and snapshot normalization agree on a concrete
two-entry group with one dotted id. -/
theorem postProcessing_eq_snapshot_witness :
    postProcessing [("Tac2".data, [("T9".data, "Root".data), ("T9.1".data, "Leaf".data)])] =
      postProcessingSnapshot
        [("Tac2".data, [("T9".data, "Root".data), ("T9.1".data, "Leaf".data)])] :=
  postProcessing_eq_snapshot.1
    [("Tac2".data, [("T9".data, "Root".data), ("T9.1".data, "Leaf".data)])]
    (by decide) (by decide)

/-! ## Lemmas relating the chunker to the spec's chunker contract -/

theorem subFind_none_drop (p : Str) : ∀ (s : Str) (d : Nat),
    subFind p s = none → subFind p (s.drop d) = none := by
  intro s
  induction s with
  | nil => intro d h; rw [List.drop_nil]; exact h
  | cons c t ih =>
    intro d h
    obtain ⟨_, ht⟩ := subFind_cons_none h
    cases d with
    | zero => exact h
    | succ d => exact ih d ht

theorem subFind_drop (p : Str) : ∀ (s : Str) (i d : Nat),
    subFind p s = some i → d ≤ i → subFind p (s.drop d) = some (i - d) := by
  intro s
  induction s with
  | nil =>
    intro i d h hd
    simp only [subFind] at h
    by_cases hs : startsWith p [] = true
    · rw [if_pos hs] at h
      cases h
      have hd0 : d = 0 := Nat.le_zero.mp hd
      subst hd0
      rw [List.drop_nil]
      simp only [subFind]
      rw [if_pos hs]
    · rw [if_neg hs] at h; cases h
  | cons c t ih =>
    intro i d h hd
    cases d with
    | zero =>
      rw [List.drop_zero]
      rw [h]
      simp
    | succ d =>
      simp only [subFind] at h
      by_cases hs : startsWith p (c :: t) = true
      · rw [if_pos hs] at h
        cases h
        omega
      · rw [if_neg hs] at h
        cases hj : subFind p t with
        | none => rw [hj] at h; cases h
        | some j =>
          rw [hj] at h
          dsimp only [Option.map] at h
          cases h
          have harith : j + 1 - (d + 1) = j - d := by omega
          rw [show ((c :: t).drop (d + 1)) = t.drop d from rfl, harith]
          exact ih j d hj (by omega)

theorem cutByPhrasesSpecAux_fuel (p1 p2 : Str) (hp2 : p2 ≠ []) :
    ∀ (f : Nat) (text : Str) (f' : Nat), text.length < f → text.length < f' →
      cutByPhrasesSpecAux p1 p2 f text = cutByPhrasesSpecAux p1 p2 f' text := by
  intro f
  induction f with
  | zero => intro text f' h _; omega
  | succ f ih =>
    intro text f' h h'
    cases f' with
    | zero => omega
    | succ g =>
      simp only [cutByPhrasesSpecAux]
      cases h1 : subFind p1 text with
      | none => rfl
      | some i1 =>
        dsimp only
        cases h2 : subFind p2 (text.drop (i1 + p1.length)) with
        | none => rfl
        | some j =>
          dsimp only
          have hle := subFind_le (text.drop (i1 + p1.length)) p2 j h2
          have hlen2 : 0 < p2.length := List.length_pos.mpr hp2
          have hlen : (text.drop (i1 + p1.length)).length ≤ text.length := by
            rw [List.length_drop]; omega
          have hdrop : ((text.drop (i1 + p1.length)).drop (j + p2.length)).length
              < text.length := by
            rw [List.length_drop]
            omega
          rw [ih ((text.drop (i1 + p1.length)).drop (j + p2.length)) g (by omega) (by omega)]

theorem chunkWFAux_fuel (p1 p2 : Str) (hp2 : p2 ≠ []) :
    ∀ (f : Nat) (text : Str) (f' : Nat), text.length < f → text.length < f' →
      chunkWFAux p1 p2 f text = chunkWFAux p1 p2 f' text := by
  intro f
  induction f with
  | zero => intro text f' h _; omega
  | succ f ih =>
    intro text f' h h'
    cases f' with
    | zero => omega
    | succ g =>
      simp only [chunkWFAux]
      cases h1 : subFind p1 text with
      | none => rfl
      | some i1 =>
        cases h2 : subFind p2 text with
        | none => rfl
        | some i2 =>
          dsimp only
          have hle := subFind_le text p2 i2 h2
          have hlen2 : 0 < p2.length := List.length_pos.mpr hp2
          have hdrop : (text.drop (i2 + p2.length)).length < text.length := by
            rw [List.length_drop]; omega
          rw [ih (text.drop (i2 + p2.length)) g (by omega) (by omega)]

theorem cutByPhrases_step (text p1 p2 : Str) (i1 i2 : Nat) (hp2 : p2 ≠ [])
    (h1 : subFind p1 text = some i1) (h2 : subFind p2 text = some i2) :
    cutByPhrases text p1 p2 =
      ((text.take i2).drop (i1 + p1.length)) ::
        cutByPhrases (text.drop (i2 + p2.length)) p1 p2 := by
  have hle := subFind_le text p2 i2 h2
  have hlen2 : 0 < p2.length := List.length_pos.mpr hp2
  have hdrop : (text.drop (i2 + p2.length)).length < text.length := by
    rw [List.length_drop]; omega
  have hlhs : cutByPhrases text p1 p2 =
      ((text.take i2).drop (i1 + p1.length)) ::
        cutByPhrasesAux p1 p2 text.length (text.drop (i2 + p2.length)) := by
    unfold cutByPhrases
    simp only [cutByPhrasesAux]
    rw [h1, h2]
  have hfix : cutByPhrasesAux p1 p2 text.length (text.drop (i2 + p2.length)) =
      cutByPhrases (text.drop (i2 + p2.length)) p1 p2 :=
    cutByPhrasesAux_fuel p1 p2 hp2 text.length (text.drop (i2 + p2.length))
      ((text.drop (i2 + p2.length)).length + 1) hdrop (by omega)
  rw [hlhs, hfix]

theorem cutByPhrasesSpec_step (text p1 p2 : Str) (i1 j : Nat) (hp2 : p2 ≠ [])
    (h1 : subFind p1 text = some i1)
    (h2 : subFind p2 (text.drop (i1 + p1.length)) = some j) :
    cutByPhrasesSpec text p1 p2 =
      (text.drop (i1 + p1.length)).take j ::
        cutByPhrasesSpec ((text.drop (i1 + p1.length)).drop (j + p2.length)) p1 p2 := by
  have hle := subFind_le (text.drop (i1 + p1.length)) p2 j h2
  have hlen2 : 0 < p2.length := List.length_pos.mpr hp2
  have hlen : (text.drop (i1 + p1.length)).length ≤ text.length := by
    rw [List.length_drop]; omega
  have hdrop : ((text.drop (i1 + p1.length)).drop (j + p2.length)).length < text.length := by
    rw [List.length_drop]; omega
  have hlhs : cutByPhrasesSpec text p1 p2 =
      (text.drop (i1 + p1.length)).take j ::
        cutByPhrasesSpecAux p1 p2 text.length
          ((text.drop (i1 + p1.length)).drop (j + p2.length)) := by
    unfold cutByPhrasesSpec
    simp only [cutByPhrasesSpecAux]
    rw [h1]
    dsimp only
    rw [h2]
  have hfix : cutByPhrasesSpecAux p1 p2 text.length
      ((text.drop (i1 + p1.length)).drop (j + p2.length)) =
      cutByPhrasesSpec ((text.drop (i1 + p1.length)).drop (j + p2.length)) p1 p2 :=
    cutByPhrasesSpecAux_fuel p1 p2 hp2 text.length
      ((text.drop (i1 + p1.length)).drop (j + p2.length))
      (((text.drop (i1 + p1.length)).drop (j + p2.length)).length + 1) hdrop (by omega)
  rw [hlhs, hfix]

theorem cutByPhrasesSpec_stop1 (text p1 p2 : Str) (h1 : subFind p1 text = none) :
    cutByPhrasesSpec text p1 p2 = [] := by
  unfold cutByPhrasesSpec
  simp only [cutByPhrasesSpecAux]
  rw [h1]

theorem cutByPhrasesSpec_stop2 (text p1 p2 : Str) (i1 : Nat)
    (h1 : subFind p1 text = some i1)
    (h2 : subFind p2 (text.drop (i1 + p1.length)) = none) :
    cutByPhrasesSpec text p1 p2 = [] := by
  unfold cutByPhrasesSpec
  simp only [cutByPhrasesSpecAux]
  rw [h1]
  dsimp only
  rw [h2]

theorem chunkWF_step (text p1 p2 : Str) (i1 i2 : Nat) (hp2 : p2 ≠ [])
    (h1 : subFind p1 text = some i1) (h2 : subFind p2 text = some i2) :
    chunkWF text p1 p2 =
      (decide (i1 + p1.length ≤ i2) && chunkWF (text.drop (i2 + p2.length)) p1 p2) := by
  have hle := subFind_le text p2 i2 h2
  have hlen2 : 0 < p2.length := List.length_pos.mpr hp2
  have hdrop : (text.drop (i2 + p2.length)).length < text.length := by
    rw [List.length_drop]; omega
  have hlhs : chunkWF text p1 p2 =
      (decide (i1 + p1.length ≤ i2) &&
        chunkWFAux p1 p2 text.length (text.drop (i2 + p2.length))) := by
    unfold chunkWF
    simp only [chunkWFAux]
    rw [h1, h2]
  have hfix : chunkWFAux p1 p2 text.length (text.drop (i2 + p2.length)) =
      chunkWF (text.drop (i2 + p2.length)) p1 p2 :=
    chunkWFAux_fuel p1 p2 hp2 text.length (text.drop (i2 + p2.length))
      ((text.drop (i2 + p2.length)).length + 1) hdrop (by omega)
  rw [hlhs, hfix]

theorem cut_eq_spec_of_wf (p1 p2 : Str) (hp2 : p2 ≠ []) :
    ∀ text : Str, chunkWF text p1 p2 = true →
      cutByPhrases text p1 p2 = cutByPhrasesSpec text p1 p2 := by
  have main : ∀ n : Nat, ∀ text : Str, text.length ≤ n → chunkWF text p1 p2 = true →
      cutByPhrases text p1 p2 = cutByPhrasesSpec text p1 p2 := by
    intro n
    induction n with
    | zero =>
      intro text hlen hwf
      have htext : text = [] := List.length_eq_zero.mp (Nat.le_zero.mp hlen)
      subst htext
      have h2 : subFind p2 ([] : Str) = none := by
        simp only [subFind]
        rw [if_neg]
        intro hs
        cases p2 with
        | nil => exact hp2 rfl
        | cons a q => simp [startsWith] at hs
      cases h1 : subFind p1 ([] : Str) with
      | none =>
        rw [cutByPhrases_stop [] p1 p2 (Or.inl h1), cutByPhrasesSpec_stop1 [] p1 p2 h1]
      | some i1 =>
        rw [cutByPhrases_stop [] p1 p2 (Or.inr h2)]
        rw [cutByPhrasesSpec_stop2 [] p1 p2 i1 h1 (subFind_none_drop p2 [] _ h2)]
    | succ n ih =>
      intro text hlen hwf
      cases h1 : subFind p1 text with
      | none =>
        rw [cutByPhrases_stop text p1 p2 (Or.inl h1), cutByPhrasesSpec_stop1 text p1 p2 h1]
      | some i1 =>
        cases h2 : subFind p2 text with
        | none =>
          rw [cutByPhrases_stop text p1 p2 (Or.inr h2)]
          rw [cutByPhrasesSpec_stop2 text p1 p2 i1 h1 (subFind_none_drop p2 text _ h2)]
        | some i2 =>
          rw [chunkWF_step text p1 p2 i1 i2 hp2 h1 h2] at hwf
          rw [Bool.and_eq_true] at hwf
          have hord : i1 + p1.length ≤ i2 := of_decide_eq_true hwf.1
          have hwfrest := hwf.2
          rw [cutByPhrases_step text p1 p2 i1 i2 hp2 h1 h2]
          have h2' : subFind p2 (text.drop (i1 + p1.length)) = some (i2 - (i1 + p1.length)) :=
            subFind_drop p2 text i2 (i1 + p1.length) h2 hord
          rw [cutByPhrasesSpec_step text p1 p2 i1 (i2 - (i1 + p1.length)) hp2 h1 h2']
          have hhead : (text.take i2).drop (i1 + p1.length)
              = (text.drop (i1 + p1.length)).take (i2 - (i1 + p1.length)) := by
            rw [List.drop_take]
          have htail : (text.drop (i1 + p1.length)).drop
              ((i2 - (i1 + p1.length)) + p2.length) = text.drop (i2 + p2.length) := by
            rw [List.drop_drop]
            congr 1
            omega
          rw [hhead, htail]
          have hle := subFind_le text p2 i2 h2
          have hlen2 : 0 < p2.length := List.length_pos.mpr hp2
          have hdrop : (text.drop (i2 + p2.length)).length ≤ n := by
            rw [List.length_drop]; omega
          rw [ih (text.drop (i2 + p2.length)) hdrop hwfrest]
  intro text hwf
  exact main text.length text (Nat.le_refl _) hwf

/-! ## C6: the chunker against its contract -/

/-- C6 counterexample: on an input where an end marker precedes the first
start marker, the code emits a spurious empty chunk that is not the text
between any start marker and the next end marker, while the spec's contract
yields only the one real chunk. -/
theorem chunker_emits_spurious_empty_chunk :
    cutByPhrases "x</g>y<g>z</g>".data "<g".data "</g>".data = [[], ">z".data]
    ∧ cutByPhrasesSpec "x</g>y<g>z</g>".data "<g".data "</g>".data = [">z".data]
    ∧ ([[], ">z".data] : List Str) ≠ [">z".data] :=
  ⟨rfl, rfl, by decide⟩

/-- C6 (amended): the code searches for the end marker from the start of the
remaining text, not from after the start marker; whenever, at every scan
step, the first remaining end marker occurs no earlier than the end of the
first remaining start marker, the chunker agrees exactly with the contract
(chunks strictly between a start marker and the next end marker, resuming
after the end marker, discarding inter-chunk text). -/
theorem chunker_matches_contract_on_wf :
    ∀ text : Str, chunkWF text "<g".data "</g>".data = true →
      cutByPhrases text "<g".data "</g>".data =
        cutByPhrasesSpec text "<g".data "</g>".data :=
  cut_eq_spec_of_wf "<g".data "</g>".data (by decide)

/-- C6 witness: the chunker matches the contract on a concrete well-formed
document. -/
theorem chunker_matches_contract_on_wf_witness :
    cutByPhrases "a<g b </g> c <g d </g>e".data "<g".data "</g>".data =
      cutByPhrasesSpec "a<g b </g> c <g d </g>e".data "<g".data "</g>".data :=
  chunker_matches_contract_on_wf "a<g b </g> c <g d </g>e".data (by rfl)

end MitreScraperMBC
